import Mathlib

/-!
Verification of the yomisplit library (yomisplit/__init__.py): a shallow
embedding of its pattern-compilation and matching engine, together with
theorems settling the specification's claims.

Strings are modelled as `List Char`.  The Python code emits regular
expressions of a very restricted shape (character classes, literals, an
optional character class, per-character alternations of such fragments,
and one-or-more hiragana captures); these are embedded as small inductive
regex element types with explicit backtracking matchers that reproduce the
engine's leftmost / greedy preference order.

The lexical tables `ONYOMI`, `KUNYOMI`, `JOYO_ONYOMI`, `JOYO_KUNYOMI` live
outside the verified source (they are data imported from other modules),
so every operation is parametrised by association-list lexicons of the
shape the code consumes: kanji character to list of candidate readings.
-/

deriving instance DecidableEq for Except

namespace Yomisplit

/-- Lexicon shape consumed by the library: kanji character to ordered list
of candidate readings (each reading a hiragana string). -/
def Lex : Type := List (Char × List (List Char))

/-- Model of the regex engine's Unicode property `Hiragana` over the
characters this library handles: the main Hiragana block U+3041–U+3096
plus the hiragana iteration marks and digraph U+309D–U+309F. -/
def isHiragana (c : Char) : Bool :=
  (0x3041 ≤ c.toNat && c.toNat ≤ 0x3096) || (0x309D ≤ c.toNat && c.toNat ≤ 0x309F)

/-- Model of the regex engine's Unicode property for katakana (used only
to classify word characters): U+30A1–U+30FA plus U+30FC–U+30FF. -/
def isKatakana (c : Char) : Bool :=
  (0x30A1 ≤ c.toNat && c.toNat ≤ 0x30FA) || (0x30FC ≤ c.toNat && c.toNat ≤ 0x30FF)

/-- Model of the regex engine's Unicode script property `Han` over the
characters this library handles: the CJK Unified Ideographs block, its
Extension A, the ideographic iteration mark 々 (U+3005), the ideographic
number zero 〇 (U+3007), the Suzhou numerals, and the CJK Compatibility
Ideographs block. -/
def isHan (c : Char) : Bool :=
  (0x4E00 ≤ c.toNat && c.toNat ≤ 0x9FFF) ||
  (0x3400 ≤ c.toNat && c.toNat ≤ 0x4DBF) ||
  c.toNat == 0x3005 || c.toNat == 0x3007 ||
  (0x3021 ≤ c.toNat && c.toNat ≤ 0x3029) ||
  (0xF900 ≤ c.toNat && c.toNat ≤ 0xFA6D)

/-- Model of the regex engine's `\d` (decimal digit) over the characters
this library handles: ASCII and fullwidth digits. -/
def pyIsDigit (c : Char) : Bool :=
  c.isDigit || (0xFF10 ≤ c.toNat && c.toNat ≤ 0xFF19)

/-- Model of the regex engine's word-character class `\w` over the
characters this library handles: ASCII letters, digits, underscore, and
the Japanese scripts (hiragana, katakana, Han including 々). -/
def pyIsWordChar (c : Char) : Bool :=
  c.isAlpha || pyIsDigit c || c == '_' || isHiragana c || isKatakana c || isHan c

/-- Embeds the test `re.match("(\W|\d)$", ch)` from `yomi_matchreg`: true
iff the character is a non-word character or a digit, i.e. may not serve
as a regex group name. -/
def pyNonAlphaGroup (c : Char) : Bool :=
  !pyIsWordChar c || pyIsDigit c

/-- The `DAKUON` table from the source: equivalence classes of hiragana
syllable onsets under rendaku voicing, handakuten and yotsugana merger.
Each entry maps a syllable to the full character class the code emits for
it (the bracket expression including the key itself). -/
def DAKUON : List (Char × List Char) := [
  ('か', ['か', 'が']),
  ('き', ['き', 'ぎ']),
  ('く', ['く', 'ぐ']),
  ('け', ['け', 'げ']),
  ('こ', ['こ', 'ご']),
  ('さ', ['さ', 'ざ']),
  ('し', ['し', 'じ']),
  ('す', ['す', 'ず']),
  ('せ', ['せ', 'ぜ']),
  ('そ', ['そ', 'ぞ']),
  ('た', ['た', 'だ']),
  ('ち', ['ち', 'ぢ', 'じ']),
  ('つ', ['つ', 'づ', 'ず']),
  ('て', ['て', 'で']),
  ('と', ['と', 'ど']),
  ('は', ['は', 'ば', 'ぱ']),
  ('ひ', ['ひ', 'び', 'ぴ']),
  ('ふ', ['ふ', 'ぶ', 'ぷ']),
  ('へ', ['へ', 'べ', 'ぺ']),
  ('ほ', ['ほ', 'ぼ', 'ぽ'])]

/-- The three gemination-capable final syllables recognised by
`japanese_matchreg` (the list `['つ', 'ち', 'く']` in the source). -/
def geminable : List Char := ['つ', 'ち', 'く']

/-- Elements of the restricted regular expressions that
`japanese_matchreg` emits: a character class `[...]`, a literal
character, or an optional character class `[...]?`. -/
inductive RElem where
  | cls (cs : List Char)
  | lit (c : Char)
  | opt (cs : List Char)
deriving DecidableEq, Repr

/-- Embeds `japanese_matchreg(hiragana)`: the regex fragment matching all
surface forms of a candidate reading.  The first syllable is replaced by
its `DAKUON` class when present there, middle syllables are literal, and
a final geminable syllable becomes the optional class `[Xっ]?`.
(The Python code indexes `hiragana[0]` and so is never called on the
empty string; the embedding returns the empty fragment there.) -/
def japanese_matchreg (hiragana : List Char) : List RElem :=
  match hiragana with
  | [] => []
  | first :: rest =>
    let firstE : RElem :=
      match DAKUON.lookup first with
      | some cs => RElem.cls cs
      | none => RElem.lit first
    let midE : List RElem := rest.dropLast.map RElem.lit
    let lastE : List RElem :=
      match rest.getLast? with
      | none => []
      | some last =>
        if geminable.contains last then [RElem.opt [last, 'っ']]
        else [RElem.lit last]
    firstE :: (midE ++ lastE)

/-- Anchored matching of a sequence of regex elements against a string:
the whole string must be consumed.  The optional element tries the
one-character branch first (greedy `?`), then the empty branch, which is
exactly the engine's backtracking order; for a boolean match the order is
irrelevant, only the existence of some parse. -/
def matchesElems : List RElem → List Char → Bool
  | [], s => s.isEmpty
  | RElem.cls cs :: es, s =>
    match s with
    | [] => false
    | c :: s' => cs.contains c && matchesElems es s'
  | RElem.lit d :: es, s =>
    match s with
    | [] => false
    | c :: s' => (c == d) && matchesElems es s'
  | RElem.opt cs :: es, s =>
    (match s with
     | [] => false
     | c :: s' => cs.contains c && matchesElems es s')
    || matchesElems es s

/-- Embeds `japanese_match(hiragana1, hiragana2)`: the anchored match
`re.compile('^' + japanese_matchreg(hiragana1) + '$').match(hiragana2)`,
as a boolean. -/
def japanese_match (hiragana1 hiragana2 : List Char) : Bool :=
  matchesElems (japanese_matchreg hiragana1) hiragana2

/-- The voicing class offered for a first syllable: its `DAKUON` class
when present in the table, else the syllable itself alone. -/
def firstAlts (c : Char) : List Char :=
  match DAKUON.lookup c with
  | some cs => cs
  | none => [c]

/-- Claim C2 as stated: `b` equals `a` with its first syllable replaced
by a member of its voicing class, middle syllables unchanged, and (for a
multi-syllable `a` with geminable final syllable) the final syllable
either kept or replaced by っ; any other final syllable unchanged. -/
def equivSpecC2 (a b : List Char) : Bool :=
  match a with
  | [] => false
  | first :: rest =>
    match rest.getLast? with
    | none => (firstAlts first).any (fun fc => b == [fc])
    | some last =>
      let mid := rest.dropLast
      let lastAlts : List (List Char) :=
        if geminable.contains last then [[last], ['っ']] else [[last]]
      (firstAlts first).any (fun fc =>
        lastAlts.any (fun la => b == fc :: (mid ++ la)))

/-- Claim C2 amended: as `equivSpecC2`, except that a geminable final
syllable of a multi-syllable sequence may also be dropped entirely (the
emitted `[Xっ]?` is optional). -/
def equivSpecC2Drop (a b : List Char) : Bool :=
  match a with
  | [] => false
  | first :: rest =>
    match rest.getLast? with
    | none => (firstAlts first).any (fun fc => b == [fc])
    | some last =>
      let mid := rest.dropLast
      let lastAlts : List (List Char) :=
        if geminable.contains last then [[last], ['っ'], []] else [[last]]
      (firstAlts first).any (fun fc =>
        lastAlts.any (fun la => b == fc :: (mid ++ la)))

/-- The error kinds the library raises: `UnknownKanji` and
`UnknownReading` are the `ValueError` subclasses defined at the top of
the source; `RepetitionWithoutAntecedent` is the bare
`ValueError('Repetition character 々 following nothing')` raised by
`yomi_matchreg`. -/
inductive YSErr where
  | UnknownKanji (kanji : Char)
  | UnknownReading
  | RepetitionWithoutAntecedent
deriving DecidableEq, Repr

/-- The reading-type tag returned by `canonical_reading`. -/
inductive YomiType where
  | On
  | Kun
deriving DecidableEq, Repr

/-- Embeds `canonical_reading(kanji, foundreading)`, parametrised by the
external `ONYOMI`/`KUNYOMI` tables.  The control flow mirrors the source
exactly, including the dangling `else`: the `UnknownKanji` branch is
attached to the kun-yomi membership test, so it fires whenever the kanji
is absent from the kun-yomi table and no on-yomi candidate matched. -/
def canonical_reading (onyomi kunyomi : Lex) (kanji : Char)
    (foundreading : List Char) : Except YSErr (List Char × YomiType) :=
  let onHit : Option (List Char) :=
    match List.lookup kanji onyomi with
    | some creadings => creadings.find? (fun cr => japanese_match cr foundreading)
    | none => none
  match onHit with
  | some cr => Except.ok (cr, YomiType.On)
  | none =>
    match List.lookup kanji kunyomi with
    | some creadings =>
      match creadings.find? (fun cr => japanese_match cr foundreading) with
      | some cr => Except.ok (cr, YomiType.Kun)
      | none => Except.error YSErr.UnknownReading
    | none => Except.error (YSErr.UnknownKanji kanji)

/-- The `i_to_u` table from the source: i-column syllables to their
u-column counterparts, used by the euphonic-shift check of `is_joyo`. -/
def i_to_u : List (Char × Char) :=
  [('い', 'う'), ('き', 'く'), ('し', 'す'), ('ち', 'つ'),
   ('に', 'ぬ'), ('ひ', 'ふ'), ('み', 'む'), ('り', 'る')]

/-- The closed set `'いきしちにひみり'` that guards the euphonic-shift
check in `is_joyo` (exactly the keys of `i_to_u`). -/
def iColumn : List Char := ['い', 'き', 'し', 'ち', 'に', 'ひ', 'み', 'り']

/-- Embeds `is_joyo(kanji, reading)`, parametrised by the external
`JOYO_ONYOMI`/`JOYO_KUNYOMI` tables.  Sequential `return True` points of
the source become a disjunction; the shift and startswith checks run only
in the `else` of the kun-yomi membership test, as in the source.  (The
`getD` fallback on the `i_to_u` lookup is unreachable: the guard set
`iColumn` is exactly the key set of `i_to_u`.) -/
def is_joyo (jon jkun : Lex) (kanji : Char) (reading : List Char) : Bool :=
  (match List.lookup kanji jon with
   | some ons => ons.contains reading
   | none => false) ||
  (match List.lookup kanji jkun with
   | some kuns =>
     if kuns.contains reading then true
     else
       ((decide (reading.length > 1) &&
         (match reading.getLast? with
          | some lastc =>
            iColumn.contains lastc &&
            kuns.contains (reading.dropLast ++ [(List.lookup lastc i_to_u).getD lastc])
          | none => false)) ||
        kuns.any (fun kn => reading.isPrefixOf kn))
   | none => false)

/-- Claim C8 as stated: the reading is exactly in the standardized
on-yomi list, or exactly in the standardized kun-yomi list, or (length
greater than one, final syllable in the fixed i-column set) its u-shifted
form is in the kun-yomi list, or it is a proper prefix of some
standardized kun-yomi entry; a kanji absent from both tables yields
false. -/
def isStandardSpec (jon jkun : Lex) (kanji : Char) (reading : List Char) : Bool :=
  let onList := (List.lookup kanji jon).getD []
  let kunList := (List.lookup kanji jkun).getD []
  onList.contains reading ||
  kunList.contains reading ||
  (decide (reading.length > 1) &&
   (match reading.getLast? with
    | some lastc =>
      iColumn.contains lastc &&
      kunList.contains (reading.dropLast ++ [(List.lookup lastc i_to_u).getD lastc])
    | none => false)) ||
  kunList.any (fun kn => reading.isPrefixOf kn && reading != kn)

/-- Stable insertion for a descending-by-length sort: the new element is
placed before the first element whose length does not exceed its own, so
earlier elements of equal length stay in front. -/
def insertDesc (x : List Char) : List (List Char) → List (List Char)
  | [] => [x]
  | y :: ys => if x.length < y.length then y :: insertDesc x ys else x :: y :: ys

/-- Embeds `yomis.sort(key=len, reverse=True)`: Python's stable sort,
here in descending candidate-length order with ties keeping their
original relative order. -/
def sortDesc (l : List (List Char)) : List (List Char) :=
  l.foldr insertDesc []

/-- The per-position regex emitted by `yomi_matchreg` for one character
of the word: either an alternation of `japanese_matchreg` fragments (one
per candidate reading), or an escaped literal character. -/
inductive PosReg where
  | alts (frags : List (List RElem))
  | litc (c : Char)
deriving DecidableEq, Repr

/-- One capture group of the compiled pattern: its group name (`none`
for the unnamed groups given to non-word characters) and its regex. -/
structure Slot where
  name : Option String
  reg : PosReg
deriving DecidableEq, Repr

/-- The group name the compiler assigns: the bare character for the
first occurrence (`count = 1`), the character followed by `repr(count)`
afterwards. -/
def groupnameOf (c : Char) (count : Nat) : String :=
  if count == 1 then String.mk [c] else String.mk [c] ++ toString count

/-- The candidate readings gathered for one character: its on-yomi list
followed by its kun-yomi list (`yomis += ONYOMI[ch]; yomis += KUNYOMI[ch]`). -/
def yomisOf (onyomi kunyomi : Lex) (ch : Char) : List (List Char) :=
  (List.lookup ch onyomi).getD [] ++ (List.lookup ch kunyomi).getD []

/-- The regex chosen for one character of the word (the first half of
the loop body of `yomi_matchreg`): known candidates become a sorted,
expanded alternation; the repetition mark reuses the previous
character's regex and fails when there is none; anything else is an
escaped literal. -/
def regOfChar (onyomi kunyomi : Lex) (ch : Char) (prevreg : Option PosReg) :
    Except YSErr PosReg :=
  if (yomisOf onyomi kunyomi ch).isEmpty then
    if ch == '々' then
      match prevreg with
      | some r => Except.ok r
      | none => Except.error YSErr.RepetitionWithoutAntecedent
    else Except.ok (PosReg.litc ch)
  else
    Except.ok (PosReg.alts ((sortDesc (yomisOf onyomi kunyomi ch)).map
      japanese_matchreg))

/-- The occurrence number this character gets from the `count` dict: one
more than the recorded count, or 1 the first time. -/
def cntOf (count : List (Char × Nat)) (ch : Char) : Nat :=
  match List.lookup ch count with
  | some n => n + 1
  | none => 1

/-- The group name (or none) the loop gives one character, given its
occurrence number. -/
def nameOf (ch : Char) (cnt : Nat) : Option String :=
  if pyNonAlphaGroup ch then none else some (groupnameOf ch cnt)

/-- The loop body state of `yomi_matchreg`, made explicit: `prevreg` is
the regex of the previously processed character (for 々), `count` the
per-character occurrence counts, consulted through `List.lookup` so the
newest entry for a character wins. -/
def yomiCompile (onyomi kunyomi : Lex) :
    List Char → Option PosReg → List (Char × Nat) → Except YSErr (List Slot)
  | [], _, _ => Except.ok []
  | ch :: rest, prevreg, count =>
    match regOfChar onyomi kunyomi ch prevreg with
    | Except.error e => Except.error e
    | Except.ok reg =>
      match yomiCompile onyomi kunyomi rest (some reg)
          ((ch, cntOf count ch) :: count) with
      | Except.error e => Except.error e
      | Except.ok slots =>
        Except.ok ({ name := nameOf ch (cntOf count ch), reg := reg } :: slots)

/-- Embeds `yomi_matchreg(kanjistring)`: compile the whole word into its
ordered list of capture slots (the source's `'$'`-terminated compiled
regex), starting with no previous character and empty counts. -/
def yomi_matchreg (onyomi kunyomi : Lex) (kanjistring : List Char) :
    Except YSErr (List Slot) :=
  yomiCompile onyomi kunyomi kanjistring none []

/-- All ways a `japanese_matchreg` fragment can consume a prefix of the
input, as `(consumed, rest)` pairs in the engine's backtracking
preference order (greedy `?`: one-character branch before the empty
branch). -/
def fragMatches : List RElem → List Char → List (List Char × List Char)
  | [], s => [([], s)]
  | RElem.cls cs :: es, s =>
    match s with
    | [] => []
    | c :: s' =>
      if cs.contains c then (fragMatches es s').map (fun pr => (c :: pr.1, pr.2))
      else []
  | RElem.lit d :: es, s =>
    match s with
    | [] => []
    | c :: s' =>
      if c == d then (fragMatches es s').map (fun pr => (c :: pr.1, pr.2))
      else []
  | RElem.opt cs :: es, s =>
    (match s with
     | [] => []
     | c :: s' =>
       if cs.contains c then (fragMatches es s').map (fun pr => (c :: pr.1, pr.2))
       else []) ++ fragMatches es s

/-- All ways one capture slot can consume a prefix of the input, in the
engine's preference order: alternation branches left to right, each
branch's own backtracking order within it. -/
def slotCandidates : PosReg → List Char → List (List Char × List Char)
  | PosReg.litc d, s =>
    match s with
    | [] => []
    | c :: s' => if c == d then [([c], s')] else []
  | PosReg.alts frags, s => frags.flatMap (fun f => fragMatches f s)

/-- Anchored matching of the compiled slots against a reading, returning
the per-slot captured substrings of the first parse in the engine's
backtracking order (depth-first, slot candidates in preference order). -/
def matchSlots : List Slot → List Char → Option (List (List Char))
  | [], s => if s.isEmpty then some [] else none
  | sl :: sls, s =>
    (slotCandidates sl.reg s).findSome? (fun pr =>
      match matchSlots sls pr.2 with
      | some caps => some (pr.1 :: caps)
      | none => none)

/-- Embeds `yomidict(kanji, reading)`: compile the word, match the
reading against the compiled pattern, and return `groupdict()` — the
named slots only, each paired with its captured substring, in slot
order.  Compilation errors (the 々-first `ValueError`) propagate; a
failed match raises `UnknownReading`. -/
def yomidict (onyomi kunyomi : Lex) (kanji reading : List Char) :
    Except YSErr (List (String × List Char)) :=
  match yomi_matchreg onyomi kunyomi kanji with
  | Except.error e => Except.error e
  | Except.ok slots =>
    match matchSlots slots reading with
    | none => Except.error YSErr.UnknownReading
    | some caps =>
      Except.ok ((slots.zip caps).filterMap (fun p =>
        match p.1.name with
        | some n => some (n, p.2)
        | none => none))

/-- One element of the two `guess_split` patterns: a capture group
`(\p{Hiragana}+)` (greedy) or `(\p{Hiragana}+?)` (lazy) for a kanji
position, or an escaped literal for any other character. -/
inductive GElem where
  | hira
  | lit (c : Char)
deriving DecidableEq, Repr

/-- The `guess_split` pattern skeleton built from the mixed text: one
hiragana capture per Han character, a literal for everything else.
Greediness is a parameter of the matcher, not of the skeleton, since the
two source patterns differ only in it. -/
def gElems (majiribun : List Char) : List GElem :=
  majiribun.map (fun c => if isHan c then GElem.hira else GElem.lit c)

/-- Anchored backtracking match of a `guess_split` pattern against the
reading, returning the captured substrings of the first parse found.  A
capture tries its possible lengths longest-first when `greedy` is true
(`+`), shortest-first otherwise (`+?`), exactly the engine's preference
order; a candidate prefix must consist of hiragana only. -/
def gMatch (greedy : Bool) : List GElem → List Char → Option (List (List Char))
  | [], s => if s.isEmpty then some [] else none
  | GElem.lit d :: es, s =>
    match s with
    | [] => none
    | c :: s' => if c == d then gMatch greedy es s' else none
  | GElem.hira :: es, s =>
    let lens := (List.range s.length).map (fun k => k + 1)
    (if greedy then lens.reverse else lens).findSome? (fun k =>
      let pre := s.take k
      if pre.all isHiragana then
        match gMatch greedy es (s.drop k) with
        | some caps => some (pre :: caps)
        | none => none
      else none)

/-- A Python dict assignment `d[k] = v` on an insertion-ordered
association list: an existing key keeps its position and gets the new
value, a new key is appended. -/
def dictUpdate (d : List (Char × List Char)) (k : Char) (v : List Char) :
    List (Char × List Char) :=
  if d.any (fun p => p.1 == k) then
    d.map (fun p => if p.1 == k then (k, v) else p)
  else d ++ [(k, v)]

/-- Embeds `guess_split(majiribun, reading)`.  The source returns `None`
on three paths: implicitly when the greedy pattern fails, and explicitly
when the greedy and lazy captures differ; the success path folds the
kanji/capture pairs into a dict, so a repeated kanji keeps its last
occurrence's capture.  (The inner `none` branch mirrors a lazy-pattern
failure, where the source would raise `AttributeError`; it is
unreachable, as the greedy and lazy patterns match the same language.) -/
def guess_split (majiribun reading : List Char) :
    Option (List (Char × List Char)) :=
  let kanjis := majiribun.filter isHan
  match gMatch true (gElems majiribun) reading with
  | none => none
  | some yomis =>
    match gMatch false (gElems majiribun) reading with
    | none => none
    | some yomis_nongreedy =>
      if yomis == yomis_nongreedy then
        some ((kanjis.zip yomis).foldl (fun d p => dictUpdate d p.1 p.2) [])
      else none

/-- Embeds the module's namesake `yomisplit(kanjiword, reading)`: its
body is `pass`, so it returns `None` on every input. -/
def yomisplit (kanjiword reading : List Char) :
    Option (List (String × List Char)) :=
  none

end Yomisplit

example : Yomisplit.guess_split ['花', '見'] ['は', 'な', 'み'] = none := by rfl
example : Yomisplit.guess_split ['日', 'と', '日'] ['あ', 'と', 'い']
    = some [('日', ['い'])] := by rfl
example : Yomisplit.guess_split ['日', '日'] ['あ', 'あ', 'あ'] = none := by rfl
example : Yomisplit.guess_split ['日'] [] = none := by rfl
example : Yomisplit.gMatch true (Yomisplit.gElems ['日', '日']) ['あ', 'あ', 'あ']
    = some [['あ', 'あ'], ['あ']] := by rfl
example : Yomisplit.gMatch false (Yomisplit.gElems ['日', '日']) ['あ', 'あ', 'あ']
    = some [['あ'], ['あ', 'あ']] := by rfl
example : Yomisplit.japanese_match ['は', 'な'] ['ば', 'な'] = true := by decide

namespace Yomisplit

/-- Claim C10: the module's namesake top-level function `yomisplit`
returns no result (`None`) on every input pair; the reading-split
operation is provided only by the separate function `yomidict`. -/
theorem yomisplit_stub_returns_none (kanjiword reading : List Char) :
    yomisplit kanjiword reading = none := rfl

/-- Claim C1: on a lexicon in which the kanji 肉 has an on-yomi entry
but no kun-yomi entry, and an observed reading no candidate matches,
`canonical_reading` fails with `UnknownKanji` even though the kanji has
a lexicon entry — the dangling `else` of the source attaches the
`UnknownKanji` branch to the kun-yomi table test alone, contradicting
the claim (and the error's own message), which require `UnknownReading`
whenever the kanji has at least one lexicon entry. -/
theorem canonical_reading_unknownkanji_dangling_else :
    canonical_reading [('肉', [['に', 'く']])] [] '肉' ['あ']
      = Except.error (YSErr.UnknownKanji '肉') ∧
    (List.lookup '肉' [('肉', [['に', 'く']])]).isSome = true ∧
    yomisOf [('肉', [['に', 'く']])] [] '肉' ≠ [] := by
  refine ⟨rfl, rfl, ?_⟩
  decide

theorem matchesElems_litLast (d : Char) (b : List Char) :
    matchesElems [RElem.lit d] b = true ↔ b = [d] := by
  cases b with
  | nil => simp [matchesElems]
  | cons c b' => cases b' <;> simp [matchesElems]

theorem matchesElems_opt (cs : List Char) (b : List Char) :
    matchesElems [RElem.opt cs] b = true ↔ b = [] ∨ ∃ c, c ∈ cs ∧ b = [c] := by
  cases b with
  | nil => simp [matchesElems]
  | cons c b' =>
    cases b' <;> simp [matchesElems, List.contains, List.elem_iff, eq_comm]

theorem matchesElems_cls_cons (cs : List Char) (es : List RElem) (b : List Char) :
    matchesElems (RElem.cls cs :: es) b = true
      ↔ ∃ c b', b = c :: b' ∧ c ∈ cs ∧ matchesElems es b' = true := by
  cases b with
  | nil => simp [matchesElems]
  | cons c b' =>
    simp only [matchesElems, Bool.and_eq_true, List.contains, List.elem_iff,
      List.cons.injEq]
    constructor
    · rintro ⟨hc, hm⟩
      exact ⟨c, b', ⟨rfl, rfl⟩, hc, hm⟩
    · rintro ⟨c1, b1, ⟨rfl, rfl⟩, hc, hm⟩
      exact ⟨hc, hm⟩

theorem matchesElems_lit_cons (d : Char) (es : List RElem) (b : List Char) :
    matchesElems (RElem.lit d :: es) b = true
      ↔ ∃ b', b = d :: b' ∧ matchesElems es b' = true := by
  cases b with
  | nil => simp [matchesElems]
  | cons c b' =>
    simp only [matchesElems, Bool.and_eq_true, beq_iff_eq, List.cons.injEq]
    constructor
    · rintro ⟨rfl, hm⟩
      exact ⟨b', ⟨rfl, rfl⟩, hm⟩
    · rintro ⟨b1, ⟨rfl, rfl⟩, hm⟩
      exact ⟨rfl, hm⟩

theorem matchesElems_litChain (mid : List Char) (es : List RElem) (b : List Char) :
    matchesElems (mid.map RElem.lit ++ es) b = true
      ↔ ∃ t, b = mid ++ t ∧ matchesElems es t = true := by
  induction mid generalizing b with
  | nil => simp
  | cons m ms ih =>
    rw [List.map_cons, List.cons_append, matchesElems_lit_cons]
    constructor
    · rintro ⟨b', rfl, hm⟩
      obtain ⟨t, rfl, hm'⟩ := (ih b').mp hm
      exact ⟨t, rfl, hm'⟩
    · rintro ⟨t, rfl, hm⟩
      exact ⟨ms ++ t, rfl, (ih (ms ++ t)).mpr ⟨t, rfl, hm⟩⟩

/-- The head element of a `japanese_matchreg` fragment matches exactly
the members of the first syllable's voicing class `firstAlts`. -/
theorem matchesElems_first_cons (first : Char) (es : List RElem) (b : List Char) :
    matchesElems
      ((match DAKUON.lookup first with
        | some cs => RElem.cls cs
        | none => RElem.lit first) :: es) b = true
      ↔ ∃ c b', b = c :: b' ∧ c ∈ firstAlts first ∧ matchesElems es b' = true := by
  cases hL : DAKUON.lookup first with
  | some cs =>
    simp only [firstAlts, hL]
    exact matchesElems_cls_cons cs es b
  | none =>
    simp only [firstAlts, hL]
    rw [matchesElems_lit_cons]
    constructor
    · rintro ⟨b', hb, hm⟩
      exact ⟨first, b', hb, List.mem_singleton.mpr rfl, hm⟩
    · rintro ⟨c, b', hb, hc, hm⟩
      rw [List.mem_singleton] at hc
      subst hc
      exact ⟨b', hb, hm⟩

/-- Claim C2, amended: for every non-empty hiragana sequence `a`,
`isEquivalent(a, b)` holds exactly when `b` is `a` with its first
syllable replaced by any member of its voicing class (or kept literal
when absent from the table), all middle syllables unchanged, and — when
`a` has more than one syllable and ends in one of the three
gemination-capable syllables — the final syllable kept as itself,
replaced by the small gemination glyph っ, or dropped entirely; for
every other multi-syllable `a` the final syllable must be unchanged. -/
theorem japanese_match_eq_spec (a b : List Char) (h : a ≠ []) :
    japanese_match a b = equivSpecC2Drop a b := by
  cases a with
  | nil => exact absurd rfl h
  | cons first rest =>
    rw [Bool.eq_iff_iff]
    cases hLast : rest.getLast? with
    | none =>
      obtain rfl := List.getLast?_eq_none_iff.mp hLast
      simp only [japanese_match, japanese_matchreg, List.dropLast_nil, List.map_nil,
        List.getLast?_nil, List.nil_append]
      rw [matchesElems_first_cons]
      simp only [equivSpecC2Drop, List.getLast?_nil, List.any_eq_true, beq_iff_eq,
        matchesElems, List.isEmpty_eq_true]
      aesop
    | some last =>
      obtain ⟨mid, rfl⟩ := List.getLast?_eq_some_iff.mp hLast
      cases hg : geminable.contains last with
      | true =>
        simp only [japanese_match, japanese_matchreg, List.getLast?_concat,
          List.dropLast_concat, hg, if_true]
        rw [matchesElems_first_cons]
        simp only [matchesElems_litChain, matchesElems_opt]
        simp only [equivSpecC2Drop, List.getLast?_concat, List.dropLast_concat, hg,
          if_true, List.any_eq_true, beq_iff_eq, List.mem_cons, List.mem_singleton,
          List.not_mem_nil]
        aesop
      | false =>
        simp only [japanese_match, japanese_matchreg, List.getLast?_concat,
          List.dropLast_concat, hg, if_false, Bool.false_eq_true]
        rw [matchesElems_first_cons]
        simp only [matchesElems_litChain, matchesElems_litLast]
        simp only [equivSpecC2Drop, List.getLast?_concat, List.dropLast_concat, hg,
          if_false, Bool.false_eq_true, List.any_eq_true, beq_iff_eq,
          List.mem_singleton]
        aesop

/-- Claim C2 as stated fails on the code: the emitted gemination
alternative `[くっ]?` is optional, so `japanese_match` accepts こ for
こく — the final syllable dropped entirely — which the claim's
keep-or-geminate reading of the final syllable excludes. -/
theorem japanese_match_drops_final_syllable :
    japanese_match ['こ', 'く'] ['こ'] = true ∧
    equivSpecC2 ['こ', 'く'] ['こ'] = false := by
  exact ⟨by decide, by decide⟩

/-- Witness for `japanese_match_eq_spec` at a concrete rendaku pair. -/
theorem japanese_match_eq_spec_witness :
    (['は', 'な'] : List Char) ≠ [] ∧
    japanese_match ['は', 'な'] ['ば', 'な'] = equivSpecC2Drop ['は', 'な'] ['ば', 'な'] :=
  ⟨by decide, japanese_match_eq_spec ['は', 'な'] ['ば', 'な'] (by decide)⟩

/-- Dropping candidates the reading is equal to cannot change the result
of the prefix scan: when the reading is a member of no list entry, being
a prefix of an entry and being a proper prefix of it coincide. -/
theorem any_isPrefixOf_eq_proper (kuns : List (List Char)) (reading : List Char)
    (h : kuns.contains reading = false) :
    kuns.any (fun kn => reading.isPrefixOf kn)
      = kuns.any (fun kn => reading.isPrefixOf kn && reading != kn) := by
  induction kuns with
  | nil => rfl
  | cons k ks ih =>
    simp only [List.contains, List.elem, Bool.or_eq_false_iff] at h
    rw [List.any_cons, List.any_cons]
    have hk : (reading == k) = false := by
      revert h
      cases hbe : reading == k <;> simp [hbe]
    have hks : ks.contains reading = false := by
      revert h
      cases hbe : reading == k <;> simp [hbe, List.contains, List.elem]
    rw [ih hks]
    simp [bne, hk]

/-- Claim C8: `isStandard` returns true exactly when the reading is in
the standardized on-yomi list, or in the standardized kun-yomi list, or
its final i-column syllable (length greater than one) shifted to the
u-column gives a member of the kun-yomi list, or it is a proper prefix
of some standardized kun-yomi entry; a kanji absent from both tables
yields false, and no error is raised. -/
theorem is_joyo_eq_spec (jon jkun : Lex) (kanji : Char) (reading : List Char) :
    is_joyo jon jkun kanji reading = isStandardSpec jon jkun kanji reading := by
  unfold is_joyo isStandardSpec
  cases hon : List.lookup kanji jon with
  | some ons =>
    cases hkun : List.lookup kanji jkun with
    | some kuns =>
      cases hc : kuns.contains reading with
      | true =>
        have hm : reading ∈ kuns := List.elem_iff.mp hc
        simp [hm]
      | false =>
        simp only [Option.getD_some, hc, if_false, Bool.false_eq_true,
          Bool.false_or]
        rw [any_isPrefixOf_eq_proper kuns reading hc]
        simp [Bool.or_assoc]
    | none => cases reading.getLast? <;> simp
  | none =>
    cases hkun : List.lookup kanji jkun with
    | some kuns =>
      cases hc : kuns.contains reading with
      | true =>
        have hm : reading ∈ kuns := List.elem_iff.mp hc
        simp [hm]
      | false =>
        simp only [Option.getD_some, hc, if_false, Bool.false_eq_true,
          Bool.false_or]
        rw [any_isPrefixOf_eq_proper kuns reading hc]
        simp [Bool.or_assoc]
    | none => cases reading.getLast? <;> simp

/-- Claim C4, amended: `guessSplit` returns a mapping exactly when both
the greedy and the lazy anchored pattern match the reading with
identical captured sequences; when the greedy pattern fails to match and
when the two captured sequences differ it returns the same absent
result, so the no-match failure and the ambiguous outcome are not
distinguishable from the returned value. -/
theorem guess_split_none_iff (majiribun reading : List Char) :
    guess_split majiribun reading = none
      ↔ (gMatch true (gElems majiribun) reading = none ∨
         gMatch false (gElems majiribun) reading = none ∨
         gMatch true (gElems majiribun) reading
           ≠ gMatch false (gElems majiribun) reading) := by
  unfold guess_split
  cases hg : gMatch true (gElems majiribun) reading with
  | none => simp
  | some ys =>
    cases hn : gMatch false (gElems majiribun) reading with
    | none => simp
    | some ys' =>
      by_cases he : ys = ys'
      · subst he
        simp
      · simp [he]

/-- Claim C4 as stated fails on the code: on 日日 with reading あああ
both patterns match and their captures differ (a genuinely ambiguous
split), yet `guess_split` returns exactly the same absent result as on
the non-matching input 日 with the empty reading — the ambiguous outcome
is not an explicit result distinct from the no-match failure. -/
theorem guess_split_ambiguous_indistinct :
    gMatch true (gElems ['日', '日']) ['あ', 'あ', 'あ'] = some [['あ', 'あ'], ['あ']] ∧
    gMatch false (gElems ['日', '日']) ['あ', 'あ', 'あ'] = some [['あ'], ['あ', 'あ']] ∧
    gMatch true (gElems ['日']) [] = none ∧
    guess_split ['日', '日'] ['あ', 'あ', 'あ'] = guess_split ['日'] [] :=
  ⟨rfl, rfl, rfl, rfl⟩

theorem lookup_map_update (d : List (Char × List Char)) (k : Char) (v : List Char)
    (q : Char) :
    List.lookup q (d.map (fun p => if p.1 == k then (k, v) else p))
      = if q == k then (if d.any (fun p => p.1 == k) then some v else none)
        else List.lookup q d := by
  induction d with
  | nil => cases hq : q == k <;> simp [hq]
  | cons p d' ih =>
    obtain ⟨pk, pv⟩ := p
    simp only [List.map_cons]
    cases hpk : pk == k with
    | true =>
      obtain rfl : pk = k := by simpa using hpk
      rw [if_pos rfl, List.lookup_cons, List.lookup_cons, List.any_cons, hpk,
        Bool.true_or]
      cases hq : q == pk with
      | true => simp
      | false =>
        rw [ih, hq]
        simp
    | false =>
      rw [if_neg Bool.false_ne_true, List.lookup_cons, List.lookup_cons,
        List.any_cons, hpk, Bool.false_or]
      cases hq : q == pk with
      | true =>
        obtain rfl : q = pk := by simpa using hq
        rw [hpk]
        simp
      | false =>
        rw [ih]

theorem lookup_append_single (d : List (Char × List Char)) (k : Char) (v : List Char)
    (q : Char) (h : d.any (fun p => p.1 == k) = false) :
    List.lookup q (d ++ [(k, v)])
      = if q == k then some v else List.lookup q d := by
  induction d with
  | nil =>
    rw [List.nil_append, List.lookup_cons]
    cases hq : q == k <;> simp [hq]
  | cons p d' ih =>
    obtain ⟨pk, pv⟩ := p
    rw [List.any_cons, Bool.or_eq_false_iff] at h
    obtain ⟨hpk, hd'⟩ := h
    rw [List.cons_append, List.lookup_cons, List.lookup_cons]
    cases hq : q == pk with
    | true =>
      obtain rfl : q = pk := by simpa using hq
      rw [hpk]
      simp
    | false =>
      rw [ih hd']

/-- A Python dict assignment behaves as expected under lookup: the
assigned key now maps to the new value, every other key is unchanged. -/
theorem lookup_dictUpdate (d : List (Char × List Char)) (k : Char) (v : List Char)
    (q : Char) :
    List.lookup q (dictUpdate d k v)
      = if q == k then some v else List.lookup q d := by
  unfold dictUpdate
  cases ha : d.any (fun p => p.1 == k) with
  | true =>
    simp only [if_true]
    rw [lookup_map_update, ha]
    simp
  | false =>
    simp only [Bool.false_eq_true, if_false]
    exact lookup_append_single d k v q ha

theorem lookup_foldl_of_notin (pairs : List (Char × List Char))
    (d0 : List (Char × List Char)) (q : Char)
    (h : ∀ p ∈ pairs, p.1 ≠ q) :
    List.lookup q (pairs.foldl (fun d p => dictUpdate d p.1 p.2) d0)
      = List.lookup q d0 := by
  induction pairs generalizing d0 with
  | nil => rfl
  | cons p rest ih =>
    rw [List.foldl_cons, ih _ (fun p' hp' => h p' (List.mem_cons_of_mem p hp'))]
    rw [lookup_dictUpdate]
    have hq : (q == p.1) = false := by
      simp only [beq_eq_false_iff_ne, ne_eq]
      exact fun he => h p (List.mem_cons_self p rest) he.symm
    rw [hq]
    simp

/-- Folding the dict assignments of `guess_split` over the kanji/capture
pairs makes each key map to the capture of its last occurrence. -/
theorem lookup_foldl_last (ks : List Char) (ys : List (List Char))
    (d0 : List (Char × List Char)) (i : Nat) (q : Char)
    (hk : ks[i]? = some q)
    (hlen : ks.length = ys.length)
    (hlast : ∀ j, i < j → ks[j]? ≠ some q) :
    List.lookup q ((ks.zip ys).foldl (fun d p => dictUpdate d p.1 p.2) d0)
      = ys[i]? := by
  induction ks generalizing ys d0 i with
  | nil => simp at hk
  | cons k ks' ih =>
    cases ys with
    | nil => simp at hlen
    | cons y ys' =>
      cases i with
      | zero =>
        obtain rfl : k = q := by simpa using hk
        rw [List.zip_cons_cons, List.foldl_cons]
        rw [lookup_foldl_of_notin]
        · rw [lookup_dictUpdate]
          simp
        · intro p hp hpq
          have hmem : p.1 ∈ ks' := (List.of_mem_zip hp).1
          obtain ⟨j, hj⟩ := List.mem_iff_getElem?.mp hmem
          exact hlast (j + 1) (Nat.succ_pos j) (by simpa [hpq] using hj)
      | succ i' =>
        rw [List.zip_cons_cons, List.foldl_cons]
        have hlen' : ks'.length = ys'.length := by simpa using hlen
        have hk' : ks'[i']? = some q := by simpa using hk
        have hlast' : ∀ j, i' < j → ks'[j]? ≠ some q := by
          intro j hj
          have := hlast (j + 1) (Nat.succ_lt_succ hj)
          simpa using this
        rw [ih ys' _ i' hk' hlen' hlast']
        simp

/-- A successful `gMatch` produces exactly one capture per capture group
of the pattern. -/
theorem gMatch_length (greedy : Bool) (es : List GElem) (s : List Char)
    (ys : List (List Char)) (h : gMatch greedy es s = some ys) :
    ys.length = es.countP (fun e => e == GElem.hira) := by
  induction es generalizing s ys with
  | nil =>
    unfold gMatch at h
    cases hs : s.isEmpty with
    | true =>
      rw [hs, if_pos rfl] at h
      obtain rfl : ([] : List (List Char)) = ys := by simpa using h
      simp
    | false =>
      rw [hs] at h
      simp at h
  | cons e es' ih =>
    cases e with
    | lit c =>
      unfold gMatch at h
      cases s with
      | nil => simp at h
      | cons x s' =>
        cases hx : x == c with
        | true =>
          simp only [hx] at h
          rw [List.countP_cons_of_neg _ _ (by simp)]
          exact ih s' ys (by simpa using h)
        | false => simp [hx] at h
    | hira =>
      unfold gMatch at h
      obtain ⟨k, hk, hfk⟩ := List.exists_of_findSome?_eq_some h
      dsimp only at hfk
      cases hall : (s.take k).all isHiragana with
      | true =>
        rw [hall, if_pos rfl] at hfk
        cases hrec : gMatch greedy es' (s.drop k) with
        | none => rw [hrec] at hfk; simp at hfk
        | some caps =>
          rw [hrec] at hfk
          obtain rfl : s.take k :: caps = ys := by simpa using hfk
          rw [List.countP_cons_of_pos _ _ (by simp)]
          simp [ih _ _ hrec]
      | false =>
        rw [hall] at hfk
        simp at hfk

/-- The `guess_split` pattern has one capture group per Han character of
the mixed text. -/
theorem countP_hira_gElems (m : List Char) :
    (gElems m).countP (fun e => e == GElem.hira) = (m.filter isHan).length := by
  induction m with
  | nil => rfl
  | cons c m' ih =>
    have hstep : gElems (c :: m')
        = (if isHan c then GElem.hira else GElem.lit c) :: gElems m' := rfl
    rw [hstep]
    cases hc : isHan c with
    | true =>
      rw [if_pos rfl, List.countP_cons_of_pos _ _ (by simp),
        List.filter_cons_of_pos hc, List.length_cons, ih]
    | false =>
      rw [if_neg Bool.false_ne_true, List.countP_cons_of_neg _ _ (by simp),
        List.filter_cons_of_neg (by simp [hc]), ih]

/-- Claim C9: when `guessSplit` returns a mapping, the mapping is keyed
by character identity, and a kanji that occurs more than once maps to
the substring captured at its last occurrence: looking up the character
at the last index where it occurs among the word's kanji returns that
index's greedy capture, whatever earlier occurrences captured. -/
theorem guess_split_last_occurrence (majiribun reading : List Char)
    (d : List (Char × List Char)) (i : Nat) (c : Char)
    (hd : guess_split majiribun reading = some d)
    (hc : (majiribun.filter isHan)[i]? = some c)
    (hlast : ∀ j, i < j → (majiribun.filter isHan)[j]? ≠ some c) :
    ∃ ys, gMatch true (gElems majiribun) reading = some ys ∧
      List.lookup c d = ys[i]? := by
  unfold guess_split at hd
  cases hg : gMatch true (gElems majiribun) reading with
  | none => rw [hg] at hd; simp at hd
  | some ys =>
    rw [hg] at hd
    cases hn : gMatch false (gElems majiribun) reading with
    | none => rw [hn] at hd; simp at hd
    | some ys' =>
      rw [hn] at hd
      dsimp only at hd
      cases he : ys == ys' with
      | false => simp [he] at hd
      | true =>
        rw [he, if_pos rfl] at hd
        obtain rfl : (((majiribun.filter isHan).zip ys).foldl
            (fun d p => dictUpdate d p.1 p.2) []) = d := by simpa using hd
        refine ⟨ys, rfl, ?_⟩
        exact lookup_foldl_last _ ys [] i c hc
          (by rw [gMatch_length true _ _ _ hg, countP_hira_gElems]) hlast

/-- Witness for `guess_split_last_occurrence`: in 日と日 with reading
あとい the kanji 日 occurs twice; the returned mapping holds い, the
capture of the second (last) occurrence, not あ. -/
theorem guess_split_last_occurrence_witness :
    guess_split ['日', 'と', '日'] ['あ', 'と', 'い'] = some [('日', ['い'])] ∧
    ∃ ys, gMatch true (gElems ['日', 'と', '日']) ['あ', 'と', 'い'] = some ys ∧
      List.lookup '日' [('日', ['い'])] = ys[1]? := by
  refine ⟨rfl, guess_split_last_occurrence ['日', 'と', '日'] ['あ', 'と', 'い']
    [('日', ['い'])] 1 '日' rfl rfl ?_⟩
  intro j hj
  rw [show List.filter isHan ['日', 'と', '日'] = ['日', '日'] from rfl]
  rw [List.getElem?_eq_none (by simpa using hj)]
  simp

/-- Every way a fragment consumes input splits it exactly: the consumed
prefix and the rest concatenate back to the input. -/
theorem fragMatches_split (f : List RElem) (s : List Char) (pr : List Char × List Char)
    (h : pr ∈ fragMatches f s) : pr.1 ++ pr.2 = s := by
  induction f generalizing s pr with
  | nil =>
    simp only [fragMatches, List.mem_singleton] at h
    subst h
    rfl
  | cons e f' ih =>
    cases e with
    | cls cs =>
      cases s with
      | nil => simp [fragMatches] at h
      | cons x s' =>
        simp only [fragMatches] at h
        cases hx : cs.contains x with
        | false => rw [hx] at h; simp at h
        | true =>
          rw [hx, if_pos rfl] at h
          obtain ⟨pr', hpr', rfl⟩ := List.mem_map.mp h
          simpa using ih s' pr' hpr'
    | lit c =>
      cases s with
      | nil => simp [fragMatches] at h
      | cons x s' =>
        simp only [fragMatches] at h
        cases hx : x == c with
        | false => rw [hx] at h; simp at h
        | true =>
          rw [hx, if_pos rfl] at h
          obtain ⟨pr', hpr', rfl⟩ := List.mem_map.mp h
          simpa using ih s' pr' hpr'
    | opt cs =>
      cases s with
      | nil =>
        simp only [fragMatches, List.mem_append] at h
        rcases h with h | h
        · simp at h
        · exact ih [] pr h
      | cons x s' =>
        simp only [fragMatches, List.mem_append] at h
        rcases h with h | h
        · cases hx : cs.contains x with
          | false => rw [hx] at h; simp at h
          | true =>
            rw [hx, if_pos rfl] at h
            obtain ⟨pr', hpr', rfl⟩ := List.mem_map.mp h
            simpa using ih s' pr' hpr'
        · exact ih (x :: s') pr h

/-- Every candidate consumption of a slot splits the input exactly. -/
theorem slotCandidates_split (r : PosReg) (s : List Char) (pr : List Char × List Char)
    (h : pr ∈ slotCandidates r s) : pr.1 ++ pr.2 = s := by
  cases r with
  | litc c =>
    cases s with
    | nil => simp [slotCandidates] at h
    | cons x s' =>
      simp only [slotCandidates] at h
      cases hx : x == c with
      | false => rw [hx] at h; simp at h
      | true =>
        rw [hx, if_pos rfl] at h
        obtain rfl : pr = ([x], s') := by simpa using h
        rfl
  | alts frags =>
    simp only [slotCandidates, List.mem_flatMap] at h
    obtain ⟨f, hf, hm⟩ := h
    exact fragMatches_split f s pr hm

/-- A successful slot match partitions the whole reading: the captures
concatenate, in slot order, to exactly the matched string. -/
theorem matchSlots_flatten (slots : List Slot) (s : List Char)
    (caps : List (List Char)) (h : matchSlots slots s = some caps) :
    caps.flatten = s := by
  induction slots generalizing s caps with
  | nil =>
    unfold matchSlots at h
    cases hs : s.isEmpty with
    | true =>
      rw [hs, if_pos rfl] at h
      obtain rfl : ([] : List (List Char)) = caps := by simpa using h
      simpa using (List.isEmpty_iff.mp hs).symm
    | false => rw [hs] at h; simp at h
  | cons sl sls ih =>
    unfold matchSlots at h
    obtain ⟨pr, hpr, hfr⟩ := List.exists_of_findSome?_eq_some h
    cases hrec : matchSlots sls pr.2 with
    | none => rw [hrec] at hfr; simp at hfr
    | some caps' =>
      rw [hrec] at hfr
      obtain rfl : pr.1 :: caps' = caps := by simpa using hfr
      rw [List.flatten_cons, ih pr.2 caps' hrec]
      exact slotCandidates_split sl.reg s pr hpr

/-- A successful slot match produces exactly one capture per slot. -/
theorem matchSlots_length (slots : List Slot) (s : List Char)
    (caps : List (List Char)) (h : matchSlots slots s = some caps) :
    caps.length = slots.length := by
  induction slots generalizing s caps with
  | nil =>
    unfold matchSlots at h
    cases hs : s.isEmpty with
    | true =>
      rw [hs, if_pos rfl] at h
      obtain rfl : ([] : List (List Char)) = caps := by simpa using h
      rfl
    | false => rw [hs] at h; simp at h
  | cons sl sls ih =>
    unfold matchSlots at h
    obtain ⟨pr, hpr, hfr⟩ := List.exists_of_findSome?_eq_some h
    cases hrec : matchSlots sls pr.2 with
    | none => rw [hrec] at hfr; simp at hfr
    | some caps' =>
      rw [hrec] at hfr
      obtain rfl : pr.1 :: caps' = caps := by simpa using hfr
      simp [ih pr.2 caps' hrec]

/-- When every character of the word is a word character, the compiler
gives every slot a name. -/
theorem yomiCompile_names_isSome (onyomi kunyomi : Lex) (w : List Char)
    (prevreg : Option PosReg) (count : List (Char × Nat)) (slots : List Slot)
    (h : yomiCompile onyomi kunyomi w prevreg count = Except.ok slots)
    (halpha : ∀ ch ∈ w, pyNonAlphaGroup ch = false) :
    ∀ sl ∈ slots, sl.name.isSome = true := by
  induction w generalizing prevreg count slots with
  | nil =>
    unfold yomiCompile at h
    obtain rfl : ([] : List Slot) = slots := by simpa using h
    simp
  | cons ch rest ih =>
    unfold yomiCompile at h
    cases hre : regOfChar onyomi kunyomi ch prevreg with
    | error e => rw [hre] at h; simp at h
    | ok reg =>
      rw [hre] at h
      dsimp only at h
      cases hrec : yomiCompile onyomi kunyomi rest (some reg)
          ((ch, cntOf count ch) :: count) with
      | error e => rw [hrec] at h; simp at h
      | ok slots' =>
        rw [hrec] at h
        obtain rfl : _ :: slots' = slots := by simpa using h
        intro sl hsl
        rcases List.mem_cons.mp hsl with rfl | hmem
        · have hch : pyNonAlphaGroup ch = false :=
            halpha ch (List.mem_cons_self ch rest)
          simp [nameOf, hch]
        · exact ih _ _ _ hrec
            (fun c hc => halpha c (List.mem_cons_of_mem ch hc)) sl hmem

/-- Zipping fully named slots with their captures and keeping the named
entries drops nothing: the dict values are exactly the captures. -/
theorem filterMap_zip_named (slots : List Slot) (caps : List (List Char))
    (hlen : caps.length = slots.length)
    (hnames : ∀ sl ∈ slots, sl.name.isSome = true) :
    ((slots.zip caps).filterMap (fun p =>
        match p.1.name with
        | some n => some (n, p.2)
        | none => none)).map Prod.snd = caps := by
  induction slots generalizing caps with
  | nil =>
    cases caps with
    | nil => rfl
    | cons y ys => simp at hlen
  | cons sl sls ih =>
    cases caps with
    | nil => simp at hlen
    | cons y ys =>
      have hsl := hnames sl (List.mem_cons_self sl sls)
      obtain ⟨n, hn⟩ := Option.isSome_iff_exists.mp hsl
      rw [List.zip_cons_cons, List.filterMap_cons]
      rw [hn]
      simp only [List.map_cons]
      rw [ih ys (by simpa using hlen)
        (fun s hs => hnames s (List.mem_cons_of_mem sl hs))]

/-- Claim C5, amended: when every character of the word is a word
character (so every compiled slot is named), a successful `yomidict`
returns a mapping whose captured substrings, in slot order, concatenate
to exactly the input reading.  Without that restriction the property
fails, because the unnamed positional captures of non-word characters
are omitted from the returned `groupdict`. -/
theorem yomidict_flatten (onyomi kunyomi : Lex) (word reading : List Char)
    (d : List (String × List Char))
    (hok : yomidict onyomi kunyomi word reading = Except.ok d)
    (halpha : ∀ ch ∈ word, pyNonAlphaGroup ch = false) :
    (d.map Prod.snd).flatten = reading := by
  unfold yomidict at hok
  cases hcomp : yomi_matchreg onyomi kunyomi word with
  | error e => rw [hcomp] at hok; simp at hok
  | ok slots =>
    rw [hcomp] at hok
    dsimp only at hok
    cases hm : matchSlots slots reading with
    | none => rw [hm] at hok; simp at hok
    | some caps =>
      rw [hm] at hok
      obtain rfl : ((slots.zip caps).filterMap (fun p =>
          match p.1.name with
          | some n => some (n, p.2)
          | none => none)) = d := by simpa using hok
      rw [filterMap_zip_named slots caps (matchSlots_length slots reading caps hm)
        (yomiCompile_names_isSome onyomi kunyomi word none [] slots hcomp halpha)]
      exact matchSlots_flatten slots reading caps hm

/-- Claim C5 as stated fails on the code: `yomidict` returns only the
named groups, so the positional capture of a non-word character (here
the punctuation 。) is missing and the returned substrings do not
concatenate to the whole reading. -/
theorem yomidict_misses_unnamed_capture :
    yomidict [] [] ['あ', '。'] ['あ', '。'] = Except.ok [("あ", ['あ'])] ∧
    (([("あ", ['あ'])].map Prod.snd).flatten : List Char) ≠ ['あ', '。'] :=
  ⟨rfl, by decide⟩

/-- Witness for `yomidict_flatten` on the word あ with reading あ. -/
theorem yomidict_flatten_witness :
    ([("あ", ['あ'])].map Prod.snd).flatten = (['あ'] : List Char) :=
  yomidict_flatten [] [] ['あ'] ['あ'] [("あ", ['あ'])] rfl (by decide)

theorem insertDesc_perm (x : List Char) (l : List (List Char)) :
    (insertDesc x l).Perm (x :: l) := by
  induction l with
  | nil => exact List.Perm.refl _
  | cons y ys ih =>
    unfold insertDesc
    by_cases hx : x.length < y.length
    · rw [if_pos hx]
      exact (ih.cons y).trans (List.Perm.swap x y ys)
    · rw [if_neg hx]

theorem sortDesc_perm (l : List (List Char)) : (sortDesc l).Perm l := by
  induction l with
  | nil => exact List.Perm.refl _
  | cons x l' ih => exact (insertDesc_perm x (sortDesc l')).trans (ih.cons x)

theorem insertDesc_sorted (x : List Char) (l : List (List Char))
    (h : l.Pairwise (fun a b => b.length ≤ a.length)) :
    (insertDesc x l).Pairwise (fun a b => b.length ≤ a.length) := by
  induction l with
  | nil => simp [insertDesc]
  | cons y ys ih =>
    rw [List.pairwise_cons] at h
    obtain ⟨hy, hys⟩ := h
    unfold insertDesc
    by_cases hx : x.length < y.length
    · rw [if_pos hx]
      rw [List.pairwise_cons]
      refine ⟨?_, ih hys⟩
      intro b hb
      have hb' : b ∈ x :: ys := (insertDesc_perm x ys).mem_iff.mp hb
      rcases List.mem_cons.mp hb' with rfl | hmem
      · exact Nat.le_of_lt hx
      · exact hy b hmem
    · rw [if_neg hx]
      rw [List.pairwise_cons]
      refine ⟨?_, List.pairwise_cons.mpr ⟨hy, hys⟩⟩
      intro b hb
      rcases List.mem_cons.mp hb with rfl | hmem
      · exact Nat.le_of_not_lt hx
      · exact Nat.le_trans (hy b hmem) (Nat.le_of_not_lt hx)

theorem sortDesc_sorted (l : List (List Char)) :
    (sortDesc l).Pairwise (fun a b => b.length ≤ a.length) := by
  induction l with
  | nil => simp [sortDesc]
  | cons x l' ih => exact insertDesc_sorted x (sortDesc l') ih

/-- Stability of the insertion: filtering any length class commutes with
inserting, because an element is always placed before the first element
of no greater length, hence after every earlier element of its own
class. -/
theorem insertDesc_filter (x : List Char) (l : List (List Char)) (L : Nat) :
    (insertDesc x l).filter (fun y => y.length == L)
      = if x.length == L then x :: l.filter (fun y => y.length == L)
        else l.filter (fun y => y.length == L) := by
  induction l with
  | nil =>
    cases hx : x.length == L with
    | true => simp [insertDesc, List.filter, hx]
    | false => simp [insertDesc, List.filter, hx]
  | cons y ys ih =>
    unfold insertDesc
    by_cases hx : x.length < y.length
    · rw [if_pos hx]
      simp only [List.filter_cons, ih]
      by_cases hpx : x.length = L
      · have hpy : (y.length == L) = false := by
          simp only [beq_eq_false_iff_ne, ne_eq]
          omega
        simp [hpx, hpy]
      · have hpx' : (x.length == L) = false := by simp [hpx]
        simp [hpx']
    · rw [if_neg hx]
      simp only [List.filter_cons]

/-- Stability of the whole sort: equal-length candidates keep their
original relative order (their filtered subsequence is unchanged). -/
theorem sortDesc_filter (l : List (List Char)) (L : Nat) :
    (sortDesc l).filter (fun y => y.length == L)
      = l.filter (fun y => y.length == L) := by
  induction l with
  | nil => rfl
  | cons x l' ih =>
    have hstep : sortDesc (x :: l') = insertDesc x (sortDesc l') := rfl
    rw [hstep, insertDesc_filter, List.filter_cons]
    cases hpx : x.length == L with
    | true => rw [if_pos rfl, if_pos rfl, ih]
    | false =>
      rw [if_neg Bool.false_ne_true, if_neg Bool.false_ne_true, ih]

/-- The slot compiled at a position whose character has candidate
readings carries the sorted, expanded alternation of those readings,
independently of the compiler state. -/
theorem yomiCompile_reg_alts (onyomi kunyomi : Lex) (w : List Char)
    (prevreg : Option PosReg) (count : List (Char × Nat)) (slots : List Slot)
    (i : Nat) (c : Char)
    (h : yomiCompile onyomi kunyomi w prevreg count = Except.ok slots)
    (hchar : w[i]? = some c)
    (hyomis : yomisOf onyomi kunyomi c ≠ []) :
    ∃ sl, slots[i]? = some sl ∧
      sl.reg = PosReg.alts ((sortDesc (yomisOf onyomi kunyomi c)).map
        japanese_matchreg) := by
  induction w generalizing prevreg count slots i with
  | nil => simp at hchar
  | cons ch rest ih =>
    unfold yomiCompile at h
    cases hre : regOfChar onyomi kunyomi ch prevreg with
    | error e => rw [hre] at h; simp at h
    | ok reg =>
      rw [hre] at h
      dsimp only at h
      cases hrec : yomiCompile onyomi kunyomi rest (some reg)
          ((ch, cntOf count ch) :: count) with
      | error e => rw [hrec] at h; simp at h
      | ok slots' =>
        rw [hrec] at h
        obtain rfl : _ :: slots' = slots := by simpa using h
        cases i with
        | zero =>
          obtain rfl : ch = c := by simpa using hchar
          refine ⟨{ name := nameOf ch (cntOf count ch), reg := reg }, by simp, ?_⟩
          unfold regOfChar at hre
          rw [if_neg (by simp [List.isEmpty_iff, hyomis])] at hre
          simpa using hre.symm
        | succ i' =>
          have hchar' : rest[i']? = some c := by simpa using hchar
          obtain ⟨sl, hsl, hreg⟩ := ih _ _ _ _ hrec hchar'
          exact ⟨sl, by simpa using hsl, hreg⟩

/-- Claim C6: at every position of the compiled word whose character has
lexicon entries, the alternation offered is, up to the recorded
expansion, the concatenation of its on-yomi and kun-yomi candidate lists
sorted in descending candidate length, candidates of equal length
keeping their original relative order (on-yomi before kun-yomi, each in
table order). -/
theorem compiled_alternation_sorted (onyomi kunyomi : Lex) (w : List Char)
    (slots : List Slot) (i : Nat) (c : Char)
    (hcomp : yomi_matchreg onyomi kunyomi w = Except.ok slots)
    (hchar : w[i]? = some c)
    (hyomis : yomisOf onyomi kunyomi c ≠ []) :
    ∃ (sl : Slot) (cands : List (List Char)), slots[i]? = some sl ∧
      sl.reg = PosReg.alts (cands.map japanese_matchreg) ∧
      cands.Perm (yomisOf onyomi kunyomi c) ∧
      cands.Pairwise (fun a b => b.length ≤ a.length) ∧
      ∀ L, cands.filter (fun y => y.length == L)
        = (yomisOf onyomi kunyomi c).filter (fun y => y.length == L) := by
  obtain ⟨sl, hsl, hreg⟩ :=
    yomiCompile_reg_alts onyomi kunyomi w none [] slots i c hcomp hchar hyomis
  exact ⟨sl, sortDesc (yomisOf onyomi kunyomi c), hsl, hreg,
    sortDesc_perm _, sortDesc_sorted _, fun L => sortDesc_filter _ L⟩

/-- Witness for `compiled_alternation_sorted`: the word 国 with on-yomi
こく and kun-yomi くに. -/
theorem compiled_alternation_sorted_witness :
    ∃ (sl : Slot) (cands : List (List Char)),
      ([{ name := some "国",
          reg := PosReg.alts [japanese_matchreg ['こ', 'く'],
            japanese_matchreg ['く', 'に']] }] : List Slot)[0]? = some sl ∧
      sl.reg = PosReg.alts (cands.map japanese_matchreg) ∧
      cands.Perm (yomisOf [('国', [['こ', 'く']])] [('国', [['く', 'に']])] '国') ∧
      cands.Pairwise (fun a b => b.length ≤ a.length) ∧
      ∀ L, cands.filter (fun y => y.length == L)
        = (yomisOf [('国', [['こ', 'く']])] [('国', [['く', 'に']])] '国').filter
            (fun y => y.length == L) :=
  compiled_alternation_sorted [('国', [['こ', 'く']])] [('国', [['く', 'に']])]
    ['国'] _ 0 '国' rfl rfl (by decide)

/-- The occurrence number handed out for a character is one more than
its count in the already processed prefix, given that the `count` dict
records exactly those counts. -/
theorem cntOf_eq (count : List (Char × Nat)) (ch : Char) (processed : List Char)
    (hinv : ∀ c, (List.lookup c count).getD 0 = processed.count c) :
    cntOf count ch = processed.count ch + 1 := by
  unfold cntOf
  cases hl : List.lookup ch count with
  | some n =>
    have hn := hinv ch
    rw [hl] at hn
    simp only [Option.getD_some] at hn
    rw [hn]
  | none =>
    have hn := hinv ch
    rw [hl] at hn
    simp only [Option.getD_none] at hn
    rw [← hn]

/-- Pushing one processed character onto the `count` dict preserves the
occurrence-count invariant. -/
theorem countInv_step (count : List (Char × Nat)) (ch : Char) (processed : List Char)
    (hinv : ∀ c, (List.lookup c count).getD 0 = processed.count c) :
    ∀ c, (List.lookup c ((ch, cntOf count ch) :: count)).getD 0
      = (processed ++ [ch]).count c := by
  intro c
  rw [List.lookup_cons]
  cases hc : c == ch with
  | true =>
    obtain rfl : c = ch := by simpa using hc
    simp [cntOf_eq count c processed hinv, List.count_append]
  | false =>
    have hne : c ≠ ch := by simpa using hc
    simp [hinv c, List.count_append, List.count_singleton', hne]

/-- The name of the slot compiled at each position: built from the
position's own character and its occurrence number within the prefix of
the word up to and including that position. -/
theorem yomiCompile_name (onyomi kunyomi : Lex) (w : List Char)
    (prevreg : Option PosReg) (count : List (Char × Nat)) (slots : List Slot)
    (processed : List Char) (i : Nat) (c : Char)
    (h : yomiCompile onyomi kunyomi w prevreg count = Except.ok slots)
    (hinv : ∀ c', (List.lookup c' count).getD 0 = processed.count c')
    (hchar : w[i]? = some c) :
    ∃ sl, slots[i]? = some sl ∧
      sl.name = nameOf c ((processed ++ w.take (i + 1)).count c) := by
  induction w generalizing prevreg count slots processed i with
  | nil => simp at hchar
  | cons ch rest ih =>
    unfold yomiCompile at h
    cases hre : regOfChar onyomi kunyomi ch prevreg with
    | error e => rw [hre] at h; simp at h
    | ok reg =>
      rw [hre] at h
      dsimp only at h
      cases hrec : yomiCompile onyomi kunyomi rest (some reg)
          ((ch, cntOf count ch) :: count) with
      | error e => rw [hrec] at h; simp at h
      | ok slots' =>
        rw [hrec] at h
        obtain rfl : _ :: slots' = slots := by simpa using h
        cases i with
        | zero =>
          obtain rfl : ch = c := by simpa using hchar
          refine ⟨{ name := nameOf ch (cntOf count ch), reg := reg }, by simp, ?_⟩
          rw [cntOf_eq count ch processed hinv]
          simp [List.count_append]
        | succ i' =>
          have hchar' : rest[i']? = some c := by simpa using hchar
          obtain ⟨sl, hsl, hname⟩ := ih _ _ _ _ _ hrec
            (countInv_step count ch processed hinv) hchar'
          refine ⟨sl, by simpa using hsl, ?_⟩
          rw [hname, List.take_succ_cons, List.append_assoc, List.singleton_append]

/-- Claim C7: the compiler names each slot from its own character, the
bare character at a first occurrence and the character followed by the
occurrence number (2, 3, …) at later occurrences, except that a
non-word character (punctuation or digit) gets an unnamed positional
capture. -/
theorem compiled_slot_names (onyomi kunyomi : Lex) (w : List Char)
    (slots : List Slot) (i : Nat) (c : Char)
    (hcomp : yomi_matchreg onyomi kunyomi w = Except.ok slots)
    (hchar : w[i]? = some c) :
    ∃ sl, slots[i]? = some sl ∧
      sl.name = (if pyNonAlphaGroup c then none
        else some (groupnameOf c ((w.take (i + 1)).count c))) := by
  obtain ⟨sl, hsl, hname⟩ :=
    yomiCompile_name onyomi kunyomi w none [] slots [] i c hcomp (by simp) hchar
  refine ⟨sl, hsl, ?_⟩
  rw [hname]
  simp [nameOf]

/-- Witness for `compiled_slot_names`: the word ああ compiles to slots
named あ and あ2. -/
theorem compiled_slot_names_witness :
    ∃ sl, ([{ name := some "あ", reg := PosReg.litc 'あ' },
        { name := some "あ2", reg := PosReg.litc 'あ' }] : List Slot)[1]? = some sl ∧
      sl.name = (if pyNonAlphaGroup 'あ' then none
        else some (groupnameOf 'あ' (((['あ', 'あ'] : List Char).take 2).count 'あ'))) :=
  compiled_slot_names [] [] ['あ', 'あ'] _ 1 'あ' rfl rfl

/-- Where the repetition mark occurs (and is not itself in the lexicon),
the compiled slot reuses the immediately preceding slot's regex
verbatim; a leading repetition mark forces the compiler to fail. -/
theorem yomiCompile_rep_chain (onyomi kunyomi : Lex)
    (hnone : yomisOf onyomi kunyomi '々' = []) (w : List Char)
    (prevreg : Option PosReg) (count : List (Char × Nat)) (slots : List Slot)
    (i : Nat)
    (h : yomiCompile onyomi kunyomi w prevreg count = Except.ok slots)
    (hchar : w[i]? = some '々') :
    (i = 0 → ∃ r sl, prevreg = some r ∧ slots[0]? = some sl ∧ sl.reg = r) ∧
    (∀ j, i = j + 1 → ∃ sl sl', slots[j + 1]? = some sl ∧ slots[j]? = some sl' ∧
      sl.reg = sl'.reg) := by
  induction w generalizing prevreg count slots i with
  | nil => simp at hchar
  | cons ch rest ih =>
    unfold yomiCompile at h
    cases hre : regOfChar onyomi kunyomi ch prevreg with
    | error e => rw [hre] at h; simp at h
    | ok reg =>
      rw [hre] at h
      dsimp only at h
      cases hrec : yomiCompile onyomi kunyomi rest (some reg)
          ((ch, cntOf count ch) :: count) with
      | error e => rw [hrec] at h; simp at h
      | ok slots' =>
        rw [hrec] at h
        obtain rfl : _ :: slots' = slots := by simpa using h
        constructor
        · intro hi
          subst hi
          obtain rfl : ch = '々' := by simpa using hchar
          unfold regOfChar at hre
          rw [if_pos (by simp [hnone]), if_pos (by decide)] at hre
          cases prevreg with
          | none => simp at hre
          | some r =>
            obtain rfl : r = reg := by simpa using hre
            exact ⟨r, { name := nameOf '々' (cntOf count '々'), reg := r },
              rfl, by simp, rfl⟩
        · intro j hij
          subst hij
          have hchar' : rest[j]? = some '々' := by simpa using hchar
          have hchain := ih _ _ _ _ hrec hchar'
          cases j with
          | zero =>
            obtain ⟨r, sl, hr, hsl, hregeq⟩ := hchain.1 rfl
            obtain rfl : reg = r := by simpa using hr
            refine ⟨sl, { name := nameOf ch (cntOf count ch), reg := reg },
              ?_, ?_, ?_⟩
            · simpa using hsl
            · simp
            · simpa using hregeq
          | succ j' =>
            obtain ⟨sl, sl', hsl, hsl', heq⟩ := hchain.2 j' rfl
            exact ⟨sl, sl', by simpa using hsl, by simpa using hsl', heq⟩

/-- Claim C3, amended: a repetition mark 々 at any position after the
first reuses the immediately preceding character's expanded alternation
verbatim, but its capture slot is named from the repetition mark itself
(with its own occurrence counting), not from the preceding character's
slot-name base; compiling a word whose first character is the
repetition mark fails with `RepetitionWithoutAntecedent`.  (Both parts
under the assumption that 々 itself has no lexicon entry.) -/
theorem repetition_mark_amended (onyomi kunyomi : Lex)
    (hnone : yomisOf onyomi kunyomi '々' = []) :
    (∀ w slots j, yomi_matchreg onyomi kunyomi w = Except.ok slots →
        w[j + 1]? = some '々' →
        ∃ sl sl', slots[j + 1]? = some sl ∧ slots[j]? = some sl' ∧
          sl.reg = sl'.reg) ∧
    (∀ w', yomi_matchreg onyomi kunyomi ('々' :: w')
        = Except.error YSErr.RepetitionWithoutAntecedent) := by
  constructor
  · intro w slots j hcomp hchar
    exact (yomiCompile_rep_chain onyomi kunyomi hnone w none [] slots (j + 1)
      hcomp hchar).2 j rfl
  · intro w'
    have hreg : regOfChar onyomi kunyomi '々' none
        = Except.error YSErr.RepetitionWithoutAntecedent := by
      unfold regOfChar
      rw [if_pos (by simp [hnone]), if_pos (by decide)]
    unfold yomi_matchreg yomiCompile
    rw [hreg]

/-- Claim C3 as stated fails on the code: the repetition mark reuses the
previous character's expanded alternation but not its slot-name base —
the capture slot is named from 々 itself.  Compiling あ々 yields the
slot names あ and 々 (the claim's name-base reuse would give あ2). -/
theorem repetition_mark_name_not_reused :
    (yomi_matchreg [] [] ['あ', '々']).map (fun sls => sls.map Slot.name)
      = Except.ok [some "あ", some "々"] ∧
    (some "々" : Option String) ≠ some "あ2" :=
  ⟨by decide, by decide⟩

/-- Witness for `repetition_mark_amended`: あ々 reuses the regex of あ
at position 1, and a word starting with 々 fails to compile. -/
theorem repetition_mark_amended_witness :
    (∃ sl sl', ([{ name := some "あ", reg := PosReg.litc 'あ' },
        { name := some "々", reg := PosReg.litc 'あ' }] : List Slot)[0 + 1]?
          = some sl ∧
      ([{ name := some "あ", reg := PosReg.litc 'あ' },
        { name := some "々", reg := PosReg.litc 'あ' }] : List Slot)[0]?
          = some sl' ∧
      sl.reg = sl'.reg) ∧
    yomi_matchreg [] [] ('々' :: ['い'])
      = Except.error YSErr.RepetitionWithoutAntecedent := by
  have h := repetition_mark_amended [] [] (by decide)
  exact ⟨h.1 ['あ', '々'] _ 0 rfl rfl, h.2 ['い']⟩

end Yomisplit
example : Yomisplit.japanese_match ['こ', 'く'] ['こ', 'っ'] = true := by decide
example : Yomisplit.japanese_match ['こ', 'く'] ['こ'] = true := by decide
example : Yomisplit.equivSpecC2 ['こ', 'く'] ['こ'] = false := by decide
example : Yomisplit.equivSpecC2Drop ['こ', 'く'] ['こ'] = true := by decide
example : Yomisplit.japanese_match ['に', 'く'] ['あ'] = false := by decide
example : Yomisplit.canonical_reading [('花', [['か']])] [('花', [['は', 'な']])] '花' ['ば', 'な']
    = Except.ok (['は', 'な'], Yomisplit.YomiType.Kun) := by decide
example : Yomisplit.canonical_reading [('肉', [['に', 'く']])] [] '肉' ['あ']
    = Except.error (Yomisplit.YSErr.UnknownKanji '肉') := by decide
example : Yomisplit.is_joyo [] [('入', [['は', 'い', 'る']])] '入' ['は', 'い'] = true := by decide
example : Yomisplit.is_joyo [] [('立', [['た', 'つ']])] '立' ['た', 'ち'] = true := by decide
example : Yomisplit.is_joyo [] [] '肉' ['に', 'く'] = false := by decide
example : Yomisplit.yomidict [('花', [['か']])] [('花', [['は', 'な']]), ('見', [['み', 'る'], ['み']])]
    ['花', '見'] ['は', 'な', 'み']
    = Except.ok [("花", ['は', 'な']), ("見", ['み'])] := by rfl
example : Yomisplit.yomi_matchreg [] [] ['々', 'あ']
    = Except.error Yomisplit.YSErr.RepetitionWithoutAntecedent := by rfl
example : Yomisplit.yomidict [] [] ['あ', '。'] ['あ', '。']
    = Except.ok [("あ", ['あ'])] := by rfl
example : Yomisplit.sortDesc [['あ'], ['あ', 'い'], ['う'], ['え', 'お']]
    = [['あ', 'い'], ['え', 'お'], ['あ'], ['う']] := by rfl
